import Mathlib

/-!
Verification of the indexed-accumulate ("groupby over pixels") kernel and the
clamp functions of the numba teaching notebooks.

The reference kernel in `3_numba_groupby_pixels.ipynb` is

  def groupby_python(index, value, output):
      for i in range(index.shape[0]):
          output[index[i]] += value[i]

operating on NumPy arrays: scalar indexing wraps a negative index `j` with
`-len <= j < 0` to position `len + j`, and raises IndexError for any index
outside `[-len, len)`.  Values are modelled exactly by rationals.
-/

set_option autoImplicit false

/-- NumPy scalar-index resolution on a buffer of length `M`: an index
`0 ≤ j < M` addresses position `j`, a negative index `-M ≤ j < 0` wraps to
position `M + j`, anything else raises (modelled as `none`). -/
def npIdx (M : Nat) (j : Int) : Option Nat :=
  if 0 ≤ j ∧ j < (M : Int) then some j.toNat
  else if -(M : Int) ≤ j ∧ j < 0 then some (j + (M : Int)).toNat
  else none

/-- The loop body of `groupby_python`, iterating positionally over `index`
and `value` in ascending order; each step resolves `output[index[i]]`
(raising on an unresolvable index, before `value[i]` is read, as in the
CPython evaluation order of `output[index[i]] += value[i]`), then adds
`value[i]` into that position.  `none` models a raised IndexError. -/
def groupby_loop : List Int → List ℚ → List ℚ → Option (List ℚ)
  | [], _, output => some output
  | j :: js, vs, output =>
    match npIdx output.length j with
    | none => none
    | some p =>
      match vs with
      | [] => none
      | v :: vtl => groupby_loop js vtl (output.set p (output.getD p 0 + v))

/-- `groupby_python(index, value, output)` from
`3_numba_groupby_pixels.ipynb` (the `numba.jit`-compiled `groupby_numba`
is the same source code).  Returns the final state of `output`, or `none`
when the loop raises. -/
def groupby_python (index : List Int) (value : List ℚ) (output : List ℚ) :
    Option (List ℚ) :=
  groupby_loop index value output

/-- The canonical left-to-right scatter-add fold: for each (index, value)
pair in order, add the value into the output slot named by the index. -/
def scatter_add (pairs : List (Int × ℚ)) (output : List ℚ) : List ℚ :=
  pairs.foldl (fun out p => out.set p.1.toNat (out.getD p.1.toNat 0 + p.2)) output

/-- NumPy wraparound on the index value itself: a negative `j` stands for
position `M + j`, a non-negative `j` for position `j`. -/
def npWrap (M : Nat) (j : Int) : Int :=
  if j < 0 then j + (M : Int) else j

/-- Error taxonomy of the spec's validated `accumulate` contract. -/
inductive AccError where
  | LengthMismatch : AccError
  | IndexOutOfRange : Nat → Int → AccError
  | InvalidArgument : AccError
deriving DecidableEq, Repr

/-- First position (counting from `i`) whose index lies outside `[0, M)`,
together with the offending index value. -/
def findOutOfRange : List Int → Int → Nat → Option (Nat × Int)
  | [], _, _ => none
  | j :: js, M, i =>
    if j < 0 ∨ M ≤ j then some (i, j) else findOutOfRange js M (i + 1)

/-- Modelled from the spec: the validated `accumulate(indices, values,
bucket_count, initial)` kernel of §4.1 is specified for reimplementation but
not implemented in the repository; src/ holds only the unsafe reference
pattern `groupby_python`.  All preconditions are validated before any
mutation (LengthMismatch on unequal input lengths, InvalidArgument on a
non-positive bucket count, IndexOutOfRange identifying the first offending
position and its index value); only then is the scatter-add performed.  The
second component is the output buffer as observable after the call:
unchanged from `initial` whenever an error is signalled. -/
def accumulate (indices : List Int) (values : List ℚ) (bucket_count : Int)
    (initial : List ℚ) : Except AccError Unit × List ℚ :=
  if indices.length ≠ values.length then (.error .LengthMismatch, initial)
  else if bucket_count ≤ 0 then (.error .InvalidArgument, initial)
  else
    match findOutOfRange indices bucket_count 0 with
    | some e => (.error (.IndexOutOfRange e.1 e.2), initial)
    | none => (.ok (), scatter_add (indices.zip values) initial)

/-- `zero_clamp(x, threshold)` from `1_numpy.ipynb`: an explicit loop over a
one-dimensional array writing `x[i]` where `|x[i]| > threshold` and `0`
elsewhere. -/
def zero_clamp : List ℚ → ℚ → List ℚ
  | [], _ => []
  | xi :: rest, threshold =>
    (if |xi| > threshold then xi else 0) :: zero_clamp rest threshold

/-- Elementwise `np.abs`. -/
def np_abs (x : List ℚ) : List ℚ := x.map (fun v => |v|)

/-- Elementwise `a > threshold` with a broadcast scalar threshold. -/
def np_gt (a : List ℚ) (threshold : ℚ) : List Bool :=
  a.map (fun v => threshold < v)

/-- `np.where(cond, x, other)` with a broadcast scalar `other`. -/
def np_where (cond : List Bool) (x : List ℚ) (other : ℚ) : List ℚ :=
  (cond.zip x).map (fun p => if p.1 then p.2 else other)

/-- `np_zero_clamp(x, threshold)` from `1_numpy.ipynb`:
`np.where(np.abs(x) > threshold, x, 0)`. -/
def np_zero_clamp (x : List ℚ) (threshold : ℚ) : List ℚ :=
  np_where (np_gt (np_abs x) threshold) x 0

/-- The scalar body of `ufunc_zero_clamp` from `1_numpy.ipynb` (the function
passed to `@vectorize`). -/
def ufunc_zero_clamp_core (x threshold : ℚ) : ℚ :=
  if |x| > threshold then x else 0

/-- `@vectorize` over a one-dimensional first argument with a broadcast
scalar second argument. -/
def vectorize (f : ℚ → ℚ → ℚ) (x : List ℚ) (threshold : ℚ) : List ℚ :=
  x.map (fun xi => f xi threshold)

/-- The ufunc `ufunc_zero_clamp` applied to `(x, threshold)`. -/
def ufunc_zero_clamp (x : List ℚ) (threshold : ℚ) : List ℚ :=
  vectorize ufunc_zero_clamp_core x threshold

example : groupby_python [0, 2, 0, 1] [1, 5, 3, 2] [0, 0, 0] = some [4, 2, 5] := by
  norm_num [groupby_python, groupby_loop, npIdx, List.getD, Int.toNat, List.set]

example : groupby_python [-1] [2] [0, 0, 0] = some [0, 0, 2] := by
  norm_num [groupby_python, groupby_loop, npIdx, List.getD, Int.toNat, List.set]

example : groupby_python [3] [1] [0, 0, 0] = none := by
  norm_num [groupby_python, groupby_loop, npIdx]

example : zero_clamp [2, -3, 1] 2 = [0, -3, 0] := by
  norm_num [zero_clamp]

/-! ### Helper lemmas -/

lemma getD_set_self (l : List ℚ) (i : Nat) (a : ℚ) (h : i < l.length) :
    (l.set i a).getD i 0 = a := by
  induction l generalizing i with
  | nil => simp at h
  | cons x xs ih =>
    cases i with
    | zero => simp [List.set, List.getD]
    | succ n =>
      simp only [List.set, List.getD_cons_succ]
      exact ih n (by simpa using h)

lemma getD_set_ne (l : List ℚ) (i k : Nat) (a : ℚ) (h : i ≠ k) :
    (l.set i a).getD k 0 = l.getD k 0 := by
  induction l generalizing i k with
  | nil => simp [List.set]
  | cons x xs ih =>
    cases i with
    | zero =>
      cases k with
      | zero => exact absurd rfl h
      | succ m => simp [List.set, List.getD]
    | succ n =>
      cases k with
      | zero => simp [List.set, List.getD]
      | succ m =>
        simp only [List.set, List.getD_cons_succ]
        exact ih n m (by omega)

lemma sum_set_add (l : List ℚ) (i : Nat) (v : ℚ) (h : i < l.length) :
    (l.set i (l.getD i 0 + v)).sum = l.sum + v := by
  induction l generalizing i with
  | nil => simp at h
  | cons x xs ih =>
    cases i with
    | zero => simp [List.set, List.getD]; ring
    | succ n =>
      simp only [List.set, List.getD_cons_succ, List.sum_cons]
      rw [ih n (by simpa using h)]
      ring

lemma map_snd_zip_eq (l₁ : List Int) (l₂ : List ℚ) (h : l₁.length = l₂.length) :
    (l₁.zip l₂).map Prod.snd = l₂ := by
  induction l₁ generalizing l₂ with
  | nil => cases l₂ with
    | nil => rfl
    | cons y ys => simp at h
  | cons x xs ih =>
    cases l₂ with
    | nil => simp at h
    | cons y ys => simpa using ih ys (by simpa using h)

/-! ### Properties of `scatter_add` -/

lemma scatter_add_nil (out : List ℚ) : scatter_add [] out = out := rfl

lemma scatter_add_cons (p : Int × ℚ) (ps : List (Int × ℚ)) (out : List ℚ) :
    scatter_add (p :: ps) out =
      scatter_add ps (out.set p.1.toNat (out.getD p.1.toNat 0 + p.2)) := rfl

lemma scatter_add_length (pairs : List (Int × ℚ)) (out : List ℚ) :
    (scatter_add pairs out).length = out.length := by
  induction pairs generalizing out with
  | nil => rfl
  | cons p ps ih => rw [scatter_add_cons, ih, List.length_set]

lemma scatter_add_sum (pairs : List (Int × ℚ)) (out : List ℚ)
    (hp : ∀ p ∈ pairs, p.1.toNat < out.length) :
    (scatter_add pairs out).sum = out.sum + (pairs.map Prod.snd).sum := by
  induction pairs generalizing out with
  | nil => simp [scatter_add_nil]
  | cons p ps ih =>
    rw [scatter_add_cons, ih _ (fun q hq => by
      rw [List.length_set]; exact hp q (List.mem_cons_of_mem _ hq))]
    rw [sum_set_add _ _ _ (hp p (List.mem_cons_self _ _))]
    simp [List.sum_cons]
    ring

lemma scatter_add_getD (pairs : List (Int × ℚ)) (out : List ℚ) (k : Nat)
    (hp : ∀ p ∈ pairs, 0 ≤ p.1 ∧ p.1 < (out.length : Int))
    (hk : k < out.length) :
    (scatter_add pairs out).getD k 0 =
      out.getD k 0 +
        ((pairs.filter (fun p => p.1 == (k : Int))).map Prod.snd).sum := by
  induction pairs generalizing out with
  | nil => simp [scatter_add_nil]
  | cons p ps ih =>
    obtain ⟨hp0, hp1⟩ := hp p (List.mem_cons_self _ _)
    have hlen : (out.set p.1.toNat (out.getD p.1.toNat 0 + p.2)).length =
        out.length := List.length_set ..
    have hps : ∀ q ∈ ps, 0 ≤ q.1 ∧ q.1 <
        ((out.set p.1.toNat (out.getD p.1.toNat 0 + p.2)).length : Int) := by
      intro q hq; rw [hlen]; exact hp q (List.mem_cons_of_mem _ hq)
    rw [scatter_add_cons, ih _ hps (by rw [hlen]; exact hk)]
    by_cases heq : p.1 = (k : Int)
    · have htn : p.1.toNat = k := by omega
      rw [htn, getD_set_self _ _ _ hk]
      have : (p.1 == (k : Int)) = true := by simpa using heq
      simp [List.filter_cons, this]
      ring
    · have htn : p.1.toNat ≠ k := by omega
      rw [getD_set_ne _ _ _ _ htn]
      have : (p.1 == (k : Int)) = false := by simpa using heq
      simp [List.filter_cons, this]

/-! ### The loop of `groupby_python` computes a scatter-add -/

lemma npIdx_of_mem_range (M : Nat) (j : Int) (h1 : -(M : Int) ≤ j)
    (h2 : j < (M : Int)) : npIdx M j = some (npWrap M j).toNat := by
  unfold npIdx npWrap
  by_cases h0 : 0 ≤ j
  · rw [if_pos ⟨h0, h2⟩, if_neg (by omega)]
  · rw [if_neg (by omega), if_pos ⟨h1, by omega⟩, if_pos (by omega)]

lemma npIdx_none_of_out_of_range (M : Nat) (j : Int)
    (h : j < -(M : Int) ∨ (M : Int) ≤ j) : npIdx M j = none := by
  unfold npIdx
  rw [if_neg (by omega), if_neg (by omega)]

lemma npWrap_mem_range (M : Nat) (j : Int) (h1 : -(M : Int) ≤ j)
    (h2 : j < (M : Int)) : 0 ≤ npWrap M j ∧ npWrap M j < (M : Int) := by
  unfold npWrap
  by_cases h0 : j < 0
  · rw [if_pos h0]; omega
  · rw [if_neg h0]; omega

lemma groupby_loop_eq_scatter (index : List Int) (value output : List ℚ)
    (hlen : index.length ≤ value.length)
    (hidx : ∀ j ∈ index, -(output.length : Int) ≤ j ∧ j < (output.length : Int)) :
    groupby_loop index value output =
      some (scatter_add ((index.map (npWrap output.length)).zip value) output) := by
  induction index generalizing value output with
  | nil => simp [groupby_loop, scatter_add_nil]
  | cons j js ih =>
    obtain ⟨hj1, hj2⟩ := hidx j (List.mem_cons_self _ _)
    cases value with
    | nil => simp at hlen
    | cons v vtl =>
      have hidxj : npIdx output.length j = some (npWrap output.length j).toNat :=
        npIdx_of_mem_range _ _ hj1 hj2
      set out2 := output.set (npWrap output.length j).toNat
        (output.getD (npWrap output.length j).toNat 0 + v) with hout2
      have hset : out2.length = output.length := List.length_set ..
      have hlen2 : js.length ≤ vtl.length := by simpa using hlen
      have hrest : ∀ q ∈ js, -(out2.length : Int) ≤ q ∧ q < (out2.length : Int) := by
        rw [hset]
        exact fun q hq => hidx q (List.mem_cons_of_mem _ hq)
      unfold groupby_loop
      rw [hidxj]
      dsimp only
      rw [ih vtl out2 hlen2 hrest, hset, List.map_cons, List.zip_cons_cons,
        scatter_add_cons]

lemma npWrap_map_id (M : Nat) (l : List Int) (h : ∀ j ∈ l, 0 ≤ j) :
    l.map (npWrap M) = l := by
  induction l with
  | nil => rfl
  | cons j js ihm =>
    have hj := h j (List.mem_cons_self _ _)
    rw [List.map_cons, ihm (fun q hq => h q (List.mem_cons_of_mem _ hq))]
    unfold npWrap
    rw [if_neg (by omega)]

lemma groupby_python_valid (index : List Int) (value output : List ℚ)
    (hlen : index.length = value.length)
    (hidx : ∀ j ∈ index, 0 ≤ j ∧ j < (output.length : Int)) :
    groupby_python index value output =
      some (scatter_add (index.zip value) output) := by
  have hmap : index.map (npWrap output.length) = index :=
    npWrap_map_id _ _ (fun j hj => (hidx j hj).1)
  unfold groupby_python
  rw [groupby_loop_eq_scatter index value output (le_of_eq hlen)
    (fun j hj => ⟨by have := (hidx j hj).1; omega, (hidx j hj).2⟩), hmap]

/-! ### Properties of `findOutOfRange` and `accumulate` -/

lemma findOutOfRange_eq_none (js : List Int) (M : Int) (a : Nat)
    (h : ∀ j ∈ js, 0 ≤ j ∧ j < M) : findOutOfRange js M a = none := by
  induction js generalizing a with
  | nil => rfl
  | cons j tl ih =>
    have hj := h j (List.mem_cons_self _ _)
    unfold findOutOfRange
    rw [if_neg (by omega)]
    exact ih _ (fun q hq => h q (List.mem_cons_of_mem _ hq))

lemma findOutOfRange_first (js : List Int) (M : Int) (a : Nat)
    (h : ∃ j ∈ js, j < 0 ∨ M ≤ j) :
    ∃ k, ∃ hk : k < js.length,
      findOutOfRange js M a = some (a + k, js.get ⟨k, hk⟩) ∧
        (js.get ⟨k, hk⟩ < 0 ∨ M ≤ js.get ⟨k, hk⟩) := by
  induction js generalizing a with
  | nil => simp at h
  | cons j tl ih =>
    by_cases hbad : j < 0 ∨ M ≤ j
    · refine ⟨0, by simp, ?_, hbad⟩
      unfold findOutOfRange
      rw [if_pos hbad]
      simp
    · have htl : ∃ q ∈ tl, q < 0 ∨ M ≤ q := by
        obtain ⟨q, hq, hqbad⟩ := h
        rcases List.mem_cons.mp hq with rfl | hq
        · exact absurd hqbad hbad
        · exact ⟨q, hq, hqbad⟩
      obtain ⟨k, hk, heq, hkbad⟩ := ih (a + 1) htl
      refine ⟨k + 1, by simpa using Nat.succ_lt_succ hk, ?_, hkbad⟩
      unfold findOutOfRange
      rw [if_neg hbad, heq]
      simp only [Option.some.injEq, Prod.mk.injEq]
      exact ⟨by omega, rfl⟩

lemma accumulate_ok (indices : List Int) (values : List ℚ) (M : Int)
    (initial : List ℚ) (hlen : indices.length = values.length) (hM : 0 < M)
    (hidx : ∀ j ∈ indices, 0 ≤ j ∧ j < M) :
    accumulate indices values M initial =
      (.ok (), scatter_add (indices.zip values) initial) := by
  unfold accumulate
  rw [if_neg (by omega), if_neg (by omega), findOutOfRange_eq_none _ _ _ hidx]

/-! ### Properties of the clamp implementations -/

lemma zero_clamp_eq_map (x : List ℚ) (t : ℚ) :
    zero_clamp x t = x.map (fun v => if |v| > t then v else 0) := by
  induction x with
  | nil => rfl
  | cons xi rest ih => rw [zero_clamp, List.map_cons, ih]

lemma np_zero_clamp_eq_map (x : List ℚ) (t : ℚ) :
    np_zero_clamp x t = x.map (fun v => if |v| > t then v else 0) := by
  induction x with
  | nil => rfl
  | cons xi rest ih =>
    unfold np_zero_clamp np_where np_gt np_abs at ih ⊢
    rw [List.map_cons, List.map_cons, List.zip_cons_cons, List.map_cons, ih,
      List.map_cons]
    by_cases h : |xi| > t <;> simp [h]

lemma ufunc_zero_clamp_eq_map (x : List ℚ) (t : ℚ) :
    ufunc_zero_clamp x t = x.map (fun v => if |v| > t then v else 0) := rfl

/-! ## The claims -/

/-- C1.  For every valid input (indices of length N with each element in
[0, M), values of length N, bucket count M > 0, initial buffer of length M),
the accumulation kernel — both the reference `groupby_python` and the
validated `accumulate` — produces an output of length M in which every
bucket k holds `initial[k]` plus the sum of the values whose index equals
k (the spec's independent per-bucket filter-and-sum). -/
theorem groupby_bucket_correctness (index : List Int) (value initial : List ℚ)
    (M : Nat) (hM : 0 < M) (hlen : index.length = value.length)
    (hinit : initial.length = M)
    (hidx : ∀ j ∈ index, 0 ≤ j ∧ j < (M : Int)) :
    ∃ out, groupby_python index value initial = some out ∧
      accumulate index value (M : Int) initial = (.ok (), out) ∧
      out.length = M ∧
      ∀ k, k < M → out.getD k 0 = initial.getD k 0 +
        (((index.zip value).filter (fun p => p.1 == (k : Int))).map Prod.snd).sum := by
  have hidx2 : ∀ j ∈ index, 0 ≤ j ∧ j < (initial.length : Int) := by
    intro j hj
    have := hidx j hj
    rw [hinit]
    exact this
  refine ⟨scatter_add (index.zip value) initial,
    groupby_python_valid index value initial hlen hidx2,
    accumulate_ok index value M initial hlen (by exact_mod_cast hM)
      (fun j hj => hidx j hj), ?_, ?_⟩
  · rw [scatter_add_length, hinit]
  · intro k hk
    exact scatter_add_getD _ _ _
      (fun p hp => hidx2 p.1 (List.of_mem_zip hp).1)
      (by rw [hinit]; exact hk)

/-- Witness for C1 at the spec's concrete scenario. -/
theorem groupby_bucket_correctness_witness :
    ∃ out, groupby_python [0, 2, 0, 1] [1, 5, 3, 2] [0, 0, 0] = some out ∧
      accumulate [0, 2, 0, 1] [1, 5, 3, 2] 3 [0, 0, 0] = (.ok (), out) ∧
      out.length = 3 ∧
      ∀ k, k < 3 → out.getD k 0 = ([0, 0, 0] : List ℚ).getD k 0 +
        ((([0, 2, 0, 1].zip [1, 5, 3, 2]).filter
          (fun p => p.1 == (k : Int))).map Prod.snd).sum :=
  groupby_bucket_correctness [0, 2, 0, 1] [1, 5, 3, 2] [0, 0, 0] 3
    (by decide) (by decide) (by decide) (by decide)

/-- C2.  On inputs that are otherwise valid but contain an index outside
[0, bucket_count), the validated `accumulate` kernel signals IndexOutOfRange
identifying the (first) offending position and its index value, leaving the
output buffer unchanged. -/
theorem accumulate_index_out_of_range (indices : List Int) (values : List ℚ)
    (M : Int) (initial : List ℚ)
    (hlen : indices.length = values.length) (hM : 0 < M)
    (hbad : ∃ j ∈ indices, j < 0 ∨ M ≤ j) :
    ∃ i, ∃ hi : i < indices.length,
      (indices.get ⟨i, hi⟩ < 0 ∨ M ≤ indices.get ⟨i, hi⟩) ∧
      accumulate indices values M initial =
        (.error (.IndexOutOfRange i (indices.get ⟨i, hi⟩)), initial) := by
  obtain ⟨k, hk, heq, hkbad⟩ := findOutOfRange_first indices M 0 hbad
  rw [Nat.zero_add] at heq
  refine ⟨k, hk, hkbad, ?_⟩
  unfold accumulate
  rw [if_neg (by omega), if_neg (by omega), heq]

/-- Witness for C2 at the spec's boundary-rejection test
`accumulate([M], [1.0], M, zeros)` with M = 3. -/
theorem accumulate_index_out_of_range_witness :
    ∃ i, ∃ hi : i < ([3] : List Int).length,
      (([3] : List Int).get ⟨i, hi⟩ < 0 ∨ 3 ≤ ([3] : List Int).get ⟨i, hi⟩) ∧
      accumulate [3] [1] 3 [0, 0, 0] =
        (.error (.IndexOutOfRange i (([3] : List Int).get ⟨i, hi⟩)), [0, 0, 0]) :=
  accumulate_index_out_of_range [3] [1] 3 [0, 0, 0] (by decide) (by decide)
    (by decide)

/-- C3.  Whenever the index and value sequences have different lengths, the
validated `accumulate` kernel signals LengthMismatch and the output buffer
observable after the call is the unchanged initial buffer (validation
happens before any mutation). -/
theorem accumulate_length_mismatch (indices : List Int) (values : List ℚ)
    (M : Int) (initial : List ℚ) (hlen : indices.length ≠ values.length) :
    accumulate indices values M initial = (.error .LengthMismatch, initial) := by
  unfold accumulate
  rw [if_pos hlen]

/-- Witness for C3 at the spec's length-mismatch test
`accumulate([0,1], [1.0], 5, zeros)`. -/
theorem accumulate_length_mismatch_witness :
    accumulate [0, 1] [1] 5 [0, 0, 0, 0, 0] =
      (.error .LengthMismatch, [0, 0, 0, 0, 0]) :=
  accumulate_length_mismatch [0, 1] [1] 5 [0, 0, 0, 0, 0] (by decide)

/-- C4.  On valid inputs the single-threaded kernel `groupby_python`
computes its result as one left-to-right linear pass: the output is the
left fold that, for i = 0, 1, ..., N-1 in ascending order, adds `value[i]`
into the output slot `index[i]`. -/
theorem groupby_sequential_left_fold (index : List Int) (value initial : List ℚ)
    (hlen : index.length = value.length)
    (hidx : ∀ j ∈ index, 0 ≤ j ∧ j < (initial.length : Int)) :
    groupby_python index value initial =
      some ((index.zip value).foldl
        (fun out p => out.set p.1.toNat (out.getD p.1.toNat 0 + p.2)) initial) :=
  groupby_python_valid index value initial hlen hidx

/-- Witness for C4 at the spec's concrete scenario. -/
theorem groupby_sequential_left_fold_witness :
    groupby_python [0, 2, 0, 1] [1, 5, 3, 2] [0, 0, 0] =
      some ((([0, 2, 0, 1] : List Int).zip ([1, 5, 3, 2] : List ℚ)).foldl
        (fun out p => out.set p.1.toNat (out.getD p.1.toNat 0 + p.2)) [0, 0, 0]) :=
  groupby_sequential_left_fold [0, 2, 0, 1] [1, 5, 3, 2] [0, 0, 0]
    (by decide) (by decide)

/-- C5.  Conservation: on valid inputs the kernel succeeds and the total
added over all buckets, `sum(output) - sum(initial)`, equals `sum(values)`
exactly (values are modelled by exact rationals, so no rounding occurs). -/
theorem groupby_conservation (index : List Int) (value initial : List ℚ)
    (hlen : index.length = value.length)
    (hidx : ∀ j ∈ index, 0 ≤ j ∧ j < (initial.length : Int)) :
    ∃ out, groupby_python index value initial = some out ∧
      out.sum - initial.sum = value.sum := by
  refine ⟨scatter_add (index.zip value) initial,
    groupby_python_valid index value initial hlen hidx, ?_⟩
  rw [scatter_add_sum _ _ (fun p hp => by
    have h1 := hidx p.1 (List.of_mem_zip hp).1
    omega)]
  rw [map_snd_zip_eq _ _ hlen]
  ring

/-- Witness for C5 at the spec's concrete scenario. -/
theorem groupby_conservation_witness :
    ∃ out, groupby_python [0, 2, 0, 1] [1, 5, 3, 2] [0, 0, 0] = some out ∧
      out.sum - ([0, 0, 0] : List ℚ).sum = ([1, 5, 3, 2] : List ℚ).sum :=
  groupby_conservation [0, 2, 0, 1] [1, 5, 3, 2] [0, 0, 0] (by decide) (by decide)

/-- C6.  Frame property: on valid inputs, a bucket k hit by no index keeps
its initial value; and on empty index/value sequences both the reference
kernel and the validated `accumulate` return the buffer unchanged, for
every bucket count M > 0 and every initial buffer. -/
theorem groupby_empty_bucket_identity :
    (∀ (index : List Int) (value initial : List ℚ) (k : Nat),
      index.length = value.length →
      (∀ j ∈ index, 0 ≤ j ∧ j < (initial.length : Int)) →
      k < initial.length →
      (∀ j ∈ index, j ≠ (k : Int)) →
      ∃ out, groupby_python index value initial = some out ∧
        out.getD k 0 = initial.getD k 0) ∧
    (∀ (M : Int) (initial : List ℚ), 0 < M →
      groupby_python [] [] initial = some initial ∧
      accumulate [] [] M initial = (.ok (), initial)) := by
  constructor
  · intro index value initial k hlen hidx hk hmiss
    refine ⟨scatter_add (index.zip value) initial,
      groupby_python_valid index value initial hlen hidx, ?_⟩
    rw [scatter_add_getD _ _ _ (fun p hp => hidx p.1 (List.of_mem_zip hp).1) hk]
    have hfil : (index.zip value).filter (fun p => p.1 == (k : Int)) = [] := by
      rw [List.filter_eq_nil_iff]
      intro p hp
      simpa using hmiss p.1 (List.of_mem_zip hp).1
    rw [hfil]
    simp
  · intro M initial hM
    refine ⟨rfl, ?_⟩
    unfold accumulate
    rw [if_neg (by simp), if_neg (by omega)]
    rfl

/-- Witness for C6: bucket 1 receives no index on input ([0], [5], [0, 0]),
and the empty input leaves a buffer unchanged under both kernels. -/
theorem groupby_empty_bucket_identity_witness :
    (∃ out, groupby_python [0] [5] [0, 0] = some out ∧
      out.getD 1 0 = ([0, 0] : List ℚ).getD 1 0) ∧
    (groupby_python [] [] [1, 2] = some [1, 2] ∧
      accumulate [] [] 5 [1, 2] = (.ok (), [1, 2])) :=
  ⟨groupby_empty_bucket_identity.1 [0] [5] [0, 0] 1 (by decide) (by decide)
      (by decide) (by decide),
    groupby_empty_bucket_identity.2 5 [1, 2] (by decide)⟩

/-- C7.  Determinism of the sequential kernel: any two results of
`groupby_python` on identical inputs are identical (the kernel is a pure
function of its inputs in the sequential, single-threaded semantics). -/
theorem groupby_sequential_determinism (index : List Int)
    (value output o₁ o₂ : List ℚ)
    (h₁ : groupby_python index value output = some o₁)
    (h₂ : groupby_python index value output = some o₂) : o₁ = o₂ := by
  rw [h₁] at h₂
  exact Option.some.inj h₂

/-- Witness for C7: the two results of `groupby_python([0], [1], [0])`
coincide. -/
theorem groupby_sequential_determinism_witness : ([1] : List ℚ) = [1] := by
  have h : groupby_python [0] [1] [0] = some [1] := by
    norm_num [groupby_python, groupby_loop, npIdx, List.getD, Int.toNat, List.set]
  exact groupby_sequential_determinism [0] [1] [0] [1] [1] h h

/-- C8.  Concrete scenario: on indices [0, 2, 0, 1], values [1, 5, 3, 2],
bucket count 3 and an all-zero initial buffer, the kernel produces
[4, 2, 5] — under both the reference `groupby_python` and the validated
`accumulate`. -/
theorem groupby_concrete_scenario :
    groupby_python [0, 2, 0, 1] [1, 5, 3, 2] [0, 0, 0] = some [4, 2, 5] ∧
    accumulate [0, 2, 0, 1] [1, 5, 3, 2] 3 [0, 0, 0] = (.ok (), [4, 2, 5]) := by
  constructor
  · norm_num [groupby_python, groupby_loop, npIdx, List.getD, Int.toNat, List.set]
  · norm_num [accumulate, findOutOfRange, scatter_add, List.getD, Int.toNat,
      List.set]

/-- C9.  Implicit edge case of the reference kernel: a negative index j with
-M ≤ j < 0 (M the buffer length) raises no error; NumPy wraparound adds the
value into position M + j instead.  An error (IndexError, modelled as
`none`) arises only when some index is ≥ M or < -M. -/
theorem groupby_negative_index_wraparound (index : List Int)
    (value output : List ℚ) (M : Nat)
    (hlen : index.length = value.length) (hout : output.length = M) :
    ((∀ j ∈ index, -(M : Int) ≤ j ∧ j < (M : Int)) →
      groupby_python index value output =
        some (scatter_add ((index.map (npWrap M)).zip value) output)) ∧
    (groupby_python index value output = none →
      ∃ j ∈ index, j < -(M : Int) ∨ (M : Int) ≤ j) := by
  subst hout
  constructor
  · intro hall
    exact groupby_loop_eq_scatter index value output (le_of_eq hlen) hall
  · intro hnone
    by_contra hcon
    push_neg at hcon
    have hall : ∀ j ∈ index,
        -(output.length : Int) ≤ j ∧ j < (output.length : Int) := by
      intro j hj
      have := hcon j hj
      omega
    unfold groupby_python at hnone
    rw [groupby_loop_eq_scatter index value output (le_of_eq hlen) hall] at hnone
    exact Option.noConfusion hnone

/-- Witness for C9: on indices [-1, 1] over a buffer of length 2, the
reference kernel raises no error and scatters through the wrapped
positions. -/
theorem groupby_negative_index_wraparound_witness :
    groupby_python [-1, 1] [2, 5] [0, 0] =
      some (scatter_add (([-1, 1].map (npWrap 2)).zip [2, 5]) [0, 0]) :=
  (groupby_negative_index_wraparound [-1, 1] [2, 5] [0, 0] 2
    (by decide) (by decide)).1 (by decide)

/-- C10.  The three clamp implementations of the second notebook agree: the
explicit loop `zero_clamp`, the vectorised `np_zero_clamp` and the ufunc
`ufunc_zero_clamp` produce the same output on every one-dimensional input,
and its element i is `x[i]` when `|x[i]| > t` and 0 otherwise. -/
theorem zero_clamp_equivalence (x : List ℚ) (t : ℚ) :
    zero_clamp x t = np_zero_clamp x t ∧
    np_zero_clamp x t = ufunc_zero_clamp x t ∧
    zero_clamp x t = x.map (fun v => if |v| > t then v else 0) := by
  refine ⟨?_, ?_, zero_clamp_eq_map x t⟩
  · rw [zero_clamp_eq_map, np_zero_clamp_eq_map]
  · rw [np_zero_clamp_eq_map, ufunc_zero_clamp_eq_map]
